import Mathlib

/-!
# Verification of the voidstrike retopology decision engine

Shallow embedding of the core logic of `docs/blender_auto_retopo.py`:
the island-counting traversal, the retopology strategy selection with its
fallback chain, the external-remesher invocation, the batch review loop,
the review prompt, and the decimation fallback.  The attribute-budget
component is not present under `src/` and is modelled from the spec.
-/

set_option maxHeartbeats 1000000

namespace Voidstrike

/-! ## Mesh data model

A mesh is an ordered sequence of faces; each face is a list of vertex
indices (as imported by bmesh, `bm.faces` indexed `0 .. n-1`). -/

structure Mesh where
  faces : List (List Nat)
deriving Repr, DecidableEq

def Mesh.n (M : Mesh) : Nat := M.faces.length

/-- Normalized (unordered) edge between two vertex indices. -/
def normEdge (a b : Nat) : Nat × Nat := (min a b, max a b)

/-- The edges of one face: consecutive vertex pairs, wrapping around. -/
def faceEdges (f : List Nat) : List (Nat × Nat) :=
  (List.range f.length).map
    (fun i => normEdge (f.getD i 0) (f.getD ((i + 1) % f.length) 0))

/-- Two faces share an edge (bmesh: a face is linked to another face of one
of its edges via `edge.link_faces`). -/
def sharesEdge (f g : List Nat) : Bool :=
  (faceEdges f).any (fun e => (faceEdges g).contains e)

/-- Face-adjacency of mesh `M` at face ids `i`, `j`. -/
def meshAdj (M : Mesh) (i j : Fin M.n) : Bool :=
  sharesEdge (M.faces.get i) (M.faces.get j)

theorem sharesEdge_symm (f g : List Nat) : sharesEdge f g = sharesEdge g f := by
  simp only [sharesEdge, List.any_eq, List.elem_eq_mem, decide_eq_true_eq]
  apply Bool.decide_congr
  constructor <;> rintro ⟨e, he₁, he₂⟩ <;> exact ⟨e, he₂, he₁⟩

theorem meshAdj_symm (M : Mesh) (i j : Fin M.n) : meshAdj M i j = meshAdj M j i :=
  sharesEdge_symm _ _

/-! ## Island counting (`retopo_with_loose_parts`, lines 520-545)

The source iterates `bm.faces`; for every face not yet visited it bumps
`num_islands` and explores the component with an explicit stack:
pop a face, skip it if visited, otherwise mark it visited and push every
not-yet-visited face linked through one of its edges.  The stack loop is
modelled with a fuel parameter; we prove below that the fuel chosen by
`islandLoop` always suffices. -/

/-- Faces linked to `f` through some shared edge, in face-id order. -/
def neighborsOf {n : Nat} (adj : Fin n → Fin n → Bool) (f : Fin n) : List (Fin n) :=
  (List.finRange n).filter (fun g => adj f g)

/-- The stack loop of the island traversal.  `push` order follows the
source's `stack.append`/`stack.pop` (LIFO): newly pushed faces are popped
first. -/
def dfsRun {n : Nat} (adj : Fin n → Fin n → Bool) :
    Nat → List (Fin n) → Finset (Fin n) → Option (Finset (Fin n))
  | 0, _, _ => none
  | _ + 1, [], visited => some visited
  | fuel + 1, f :: stack, visited =>
    if f ∈ visited then dfsRun adj fuel stack visited
    else
      dfsRun adj fuel
        ((((neighborsOf adj f).filter (fun g => g ∉ insert f visited)).reverse) ++ stack)
        (insert f visited)

/-- The outer loop over all face ids: start a traversal at every face not
yet visited, counting one island per start. -/
def islandLoop {n : Nat} (adj : Fin n → Fin n → Bool) :
    List (Fin n) → Finset (Fin n) → Nat → Option Nat
  | [], _, count => some count
  | f :: rest, visited, count =>
    if f ∈ visited then islandLoop adj rest visited count
    else
      match dfsRun adj ((n + 1) * (n + 1)) [f] visited with
      | none => none
      | some visited' => islandLoop adj rest visited' (count + 1)

/-- The value `num_islands` as computed by `retopo_with_loose_parts`. -/
def islandCountOpt (M : Mesh) : Option Nat :=
  islandLoop (meshAdj M) (List.finRange M.n) ∅ 0

def islandCount (M : Mesh) : Nat := (islandCountOpt M).getD 0

/-! ## Connected components of the face-adjacency graph (spec side)

"Two faces are adjacent iff they share an edge"; an island is a maximal
connected component of that graph.  Reachability is the reflexive
transitive closure of adjacency; the number of connected components is
the number of distinct reachability classes. -/

def Reaches {n : Nat} (adj : Fin n → Fin n → Bool) (f g : Fin n) : Prop :=
  Relation.ReflTransGen (fun a b => adj a b = true) f g

/-- One expansion step of the reachable set: add every face adjacent to a
face already in the set. -/
def reachStep {n : Nat} (adj : Fin n → Fin n → Bool) (S : Finset (Fin n)) :
    Finset (Fin n) :=
  S ∪ Finset.univ.filter (fun g => ∃ x ∈ S, adj x g = true)

/-- Computable reachable set: iterate the expansion `n` times. -/
def reachSet {n : Nat} (adj : Fin n → Fin n → Bool) (f : Fin n) : Finset (Fin n) :=
  (reachStep adj)^[n] {f}

theorem subset_reachStep {n : Nat} (adj : Fin n → Fin n → Bool) (S : Finset (Fin n)) :
    S ⊆ reachStep adj S :=
  Finset.subset_union_left

theorem reachStep_mono {n : Nat} (adj : Fin n → Fin n → Bool)
    {S T : Finset (Fin n)} (h : S ⊆ T) : reachStep adj S ⊆ reachStep adj T := by
  intro g hg
  simp only [reachStep, Finset.mem_union, Finset.mem_filter, Finset.mem_univ,
    true_and] at hg ⊢
  rcases hg with hg | ⟨x, hx, hadj⟩
  · exact Or.inl (h hg)
  · exact Or.inr ⟨x, h hx, hadj⟩

theorem mem_reachSet_sound {n : Nat} (adj : Fin n → Fin n → Bool) (f : Fin n) :
    ∀ k g, g ∈ (reachStep adj)^[k] {f} → Reaches adj f g := by
  intro k
  induction k with
  | zero =>
    intro g hg
    simp only [Function.iterate_zero, id_eq, Finset.mem_singleton] at hg
    exact hg ▸ Relation.ReflTransGen.refl
  | succ k ih =>
    intro g hg
    rw [Function.iterate_succ_apply'] at hg
    simp only [reachStep, Finset.mem_union, Finset.mem_filter, Finset.mem_univ,
      true_and] at hg
    rcases hg with hg | ⟨x, hx, hadj⟩
    · exact ih g hg
    · exact Relation.ReflTransGen.tail (ih x hx) hadj

theorem reachStep_fixed_of_eq {n : Nat} (adj : Fin n → Fin n → Bool)
    {S : Finset (Fin n)} (h : reachStep adj S = S) :
    ∀ m, (reachStep adj)^[m] S = S := by
  intro m
  induction m with
  | zero => rfl
  | succ m ih => rw [Function.iterate_succ_apply, h, ih]

/-- The `n`-fold iterate is a fixed point of the expansion step. -/
theorem reachSet_fixed {n : Nat} (adj : Fin n → Fin n → Bool) (f : Fin n) :
    reachStep adj (reachSet adj f) = reachSet adj f := by
  by_contra hne
  -- if no iterate below `n` stabilizes, the cardinality grows past `n`
  have hstrict : ∀ k, k ≤ n → ¬ reachStep adj ((reachStep adj)^[k] {f}) = (reachStep adj)^[k] {f} := by
    intro k hk heq
    have : (reachStep adj)^[n] {f} = (reachStep adj)^[k] {f} := by
      have := reachStep_fixed_of_eq adj heq (n - k)
      calc (reachStep adj)^[n] {f} = (reachStep adj)^[n - k + k] {f} := by
            rw [Nat.sub_add_cancel hk]
        _ = (reachStep adj)^[n - k] ((reachStep adj)^[k] {f}) := by
            rw [Function.iterate_add_apply]
        _ = (reachStep adj)^[k] {f} := this
    exact hne (by rw [reachSet, this, heq])
  have hcard : ∀ k, k ≤ n → k + 1 ≤ ((reachStep adj)^[k] {f}).card := by
    intro k
    induction k with
    | zero => intro _; simp
    | succ k ih =>
      intro hk
      have hk' : k ≤ n := Nat.le_of_succ_le hk
      have hssub : (reachStep adj)^[k] {f} ⊂ (reachStep adj)^[k + 1] {f} := by
        rw [Function.iterate_succ_apply']
        exact lt_of_le_of_ne (subset_reachStep adj _)
          (fun h => hstrict k hk' h.symm)
      have := Finset.card_lt_card hssub
      omega
  have h1 := hcard n le_rfl
  have h2 : ((reachStep adj)^[n] {f}).card ≤ n := by
    have := Finset.card_le_card ((reachStep adj)^[n] {f}).subset_univ
    simpa using this
  omega

theorem mem_reachSet_complete {n : Nat} (adj : Fin n → Fin n → Bool) (f g : Fin n)
    (h : Reaches adj f g) : g ∈ reachSet adj f := by
  induction h with
  | refl =>
    have : f ∈ ({f} : Finset (Fin n)) := Finset.mem_singleton_self f
    have hsub : ({f} : Finset (Fin n)) ⊆ reachSet adj f := by
      unfold reachSet
      induction n with
      | zero => exact Fin.elim0 f
      | succ m _ =>
        intro x hx
        -- {f} ⊆ step^[k] {f} for every k, by monotone growth
        have grow : ∀ k, ({f} : Finset (Fin (m+1))) ⊆ (reachStep adj)^[k] {f} := by
          intro k
          induction k with
          | zero => exact fun y hy => hy
          | succ k ihk =>
            rw [Function.iterate_succ_apply']
            exact fun y hy => subset_reachStep adj _ (ihk hy)
        exact grow (m + 1) hx
    exact hsub this
  | tail _ hadj ih =>
    have := reachSet_fixed adj f
    rw [← this]
    simp only [reachStep, Finset.mem_union, Finset.mem_filter, Finset.mem_univ, true_and]
    exact Or.inr ⟨_, ih, hadj⟩

theorem reaches_iff_mem_reachSet {n : Nat} (adj : Fin n → Fin n → Bool) (f g : Fin n) :
    Reaches adj f g ↔ g ∈ reachSet adj f :=
  ⟨mem_reachSet_complete adj f g, fun h => mem_reachSet_sound adj f n g h⟩

instance {n : Nat} (adj : Fin n → Fin n → Bool) (f g : Fin n) :
    Decidable (Reaches adj f g) :=
  decidable_of_iff _ (reaches_iff_mem_reachSet adj f g).symm

/-- The connected component of face `f`, as a set of face ids. -/
def component {n : Nat} (adj : Fin n → Fin n → Bool) (f : Fin n) : Finset (Fin n) :=
  Finset.univ.filter (fun g => Reaches adj f g)

/-- The number of connected components of the face-adjacency graph: the
number of distinct component sets. -/
def numComponents {n : Nat} (adj : Fin n → Fin n → Bool) : Nat :=
  (Finset.univ.image (fun f => component adj f)).card

/-! ## Correctness of the traversal -/

theorem dfsRun_subset {n : Nat} (adj : Fin n → Fin n → Bool) :
    ∀ (fuel : Nat) (S : List (Fin n)) (V R : Finset (Fin n)),
      dfsRun adj fuel S V = some R → V ⊆ R := by
  intro fuel
  induction fuel with
  | zero => intro S V R h; simp [dfsRun] at h
  | succ fuel ih =>
    intro S V R h
    cases S with
    | nil =>
      simp only [dfsRun, Option.some.injEq] at h
      exact h ▸ Finset.Subset.refl V
    | cons f S =>
      rw [dfsRun] at h
      by_cases hf : f ∈ V
      · rw [if_pos hf] at h
        exact ih _ _ _ h
      · rw [if_neg hf] at h
        exact (Finset.subset_insert f V).trans (ih _ _ _ h)

theorem dfsRun_stack_mem {n : Nat} (adj : Fin n → Fin n → Bool) :
    ∀ (fuel : Nat) (S : List (Fin n)) (V R : Finset (Fin n)),
      dfsRun adj fuel S V = some R → ∀ s ∈ S, s ∈ R := by
  intro fuel
  induction fuel with
  | zero => intro S V R h; simp [dfsRun] at h
  | succ fuel ih =>
    intro S V R h s hs
    cases S with
    | nil => simp at hs
    | cons f S =>
      rw [dfsRun] at h
      rcases List.mem_cons.mp hs with rfl | hs'
      · by_cases hf : s ∈ V
        · rw [if_pos hf] at h
          exact dfsRun_subset adj _ _ _ _ h hf
        · rw [if_neg hf] at h
          exact dfsRun_subset adj _ _ _ _ h (Finset.mem_insert_self s V)
      · by_cases hf : f ∈ V
        · rw [if_pos hf] at h
          exact ih _ _ _ h s hs'
        · rw [if_neg hf] at h
          exact ih _ _ _ h s (List.mem_append_right _ hs')

theorem mem_neighborsOf {n : Nat} (adj : Fin n → Fin n → Bool) (f g : Fin n) :
    g ∈ neighborsOf adj f ↔ adj f g = true := by
  simp [neighborsOf, List.mem_filter, List.mem_finRange]

theorem dfsRun_sound {n : Nat} (adj : Fin n → Fin n → Bool) :
    ∀ (fuel : Nat) (S : List (Fin n)) (V R : Finset (Fin n)),
      dfsRun adj fuel S V = some R →
      ∀ g ∈ R, g ∈ V ∨ ∃ s ∈ S, Reaches adj s g := by
  intro fuel
  induction fuel with
  | zero => intro S V R h; simp [dfsRun] at h
  | succ fuel ih =>
    intro S V R h g hg
    cases S with
    | nil =>
      simp only [dfsRun, Option.some.injEq] at h
      exact Or.inl (h ▸ hg)
    | cons f S =>
      rw [dfsRun] at h
      by_cases hf : f ∈ V
      · rw [if_pos hf] at h
        rcases ih _ _ _ h g hg with hgV | ⟨s, hs, hr⟩
        · exact Or.inl hgV
        · exact Or.inr ⟨s, List.mem_cons_of_mem f hs, hr⟩
      · rw [if_neg hf] at h
        rcases ih _ _ _ h g hg with hgV | ⟨s, hs, hr⟩
        · rcases Finset.mem_insert.mp hgV with rfl | hgV'
          · exact Or.inr ⟨g, List.mem_cons_self g S, Relation.ReflTransGen.refl⟩
          · exact Or.inl hgV'
        · rcases List.mem_append.mp hs with hs' | hs'
          · have : s ∈ neighborsOf adj f := by
              have := List.mem_reverse.mp hs'
              exact (List.mem_filter.mp this).1
            have hadj : adj f s = true := (mem_neighborsOf adj f s).mp this
            exact Or.inr ⟨f, List.mem_cons_self f S, Relation.ReflTransGen.head hadj hr⟩
          · exact Or.inr ⟨s, List.mem_cons_of_mem f hs', hr⟩

theorem dfsRun_closed {n : Nat} (adj : Fin n → Fin n → Bool) :
    ∀ (fuel : Nat) (S : List (Fin n)) (V R : Finset (Fin n)),
      (∀ x ∈ V, ∀ y, adj x y = true → y ∈ V ∨ y ∈ S) →
      dfsRun adj fuel S V = some R →
      ∀ x ∈ R, ∀ y, adj x y = true → y ∈ R := by
  intro fuel
  induction fuel with
  | zero => intro S V R _ h; simp [dfsRun] at h
  | succ fuel ih =>
    intro S V R hH h
    cases S with
    | nil =>
      simp only [dfsRun, Option.some.injEq] at h
      subst h
      intro x hx y hy
      rcases hH x hx y hy with h' | h'
      · exact h'
      · simp at h'
    | cons f S =>
      rw [dfsRun] at h
      by_cases hf : f ∈ V
      · rw [if_pos hf] at h
        refine ih _ _ _ ?_ h
        intro x hx y hy
        rcases hH x hx y hy with h' | h'
        · exact Or.inl h'
        · rcases List.mem_cons.mp h' with rfl | h''
          · exact Or.inl hf
          · exact Or.inr h''
      · rw [if_neg hf] at h
        refine ih _ _ _ ?_ h
        intro x hx y hy
        rcases Finset.mem_insert.mp hx with rfl | hxV
        · by_cases hyV : y ∈ insert x V
          · exact Or.inl hyV
          · refine Or.inr (List.mem_append_left _ ?_)
            rw [List.mem_reverse, List.mem_filter]
            exact ⟨(mem_neighborsOf adj x y).mpr hy, by simpa using hyV⟩
        · rcases hH x hxV y hy with h' | h'
          · exact Or.inl (Finset.mem_insert_of_mem h')
          · rcases List.mem_cons.mp h' with rfl | h''
            · exact Or.inl (Finset.mem_insert_self y V)
            · exact Or.inr (List.mem_append_right _ h'')

theorem dfsRun_isSome {n : Nat} (adj : Fin n → Fin n → Bool) :
    ∀ (fuel : Nat) (S : List (Fin n)) (V : Finset (Fin n)),
      S.length + (n - V.card) * n < fuel → (dfsRun adj fuel S V).isSome := by
  intro fuel
  induction fuel with
  | zero => intro S V h; omega
  | succ fuel ih =>
    intro S V h
    cases S with
    | nil => simp [dfsRun]
    | cons f S =>
      rw [dfsRun]
      by_cases hf : f ∈ V
      · rw [if_pos hf]
        refine ih _ _ ?_
        simp only [List.length_cons] at h
        omega
      · rw [if_neg hf]
        refine ih _ _ ?_
        have hcard : V.card + 1 ≤ n := by
          have h1 : (insert f V).card = V.card + 1 := Finset.card_insert_of_not_mem hf
          have h2 : (insert f V).card ≤ n := by
            have := Finset.card_le_card (insert f V).subset_univ
            simpa using this
          omega
        have hpush :
            (((neighborsOf adj f).filter (fun g => g ∉ insert f V)).reverse).length ≤ n := by
          rw [List.length_reverse]
          calc ((neighborsOf adj f).filter (fun g => g ∉ insert f V)).length
              ≤ (neighborsOf adj f).length := List.length_filter_le _ _
            _ ≤ (List.finRange n).length := List.length_filter_le _ _
            _ = n := List.length_finRange n
        rw [Finset.card_insert_of_not_mem hf]
        simp only [List.length_cons, List.length_append] at h ⊢
        have hmul : (n - V.card) * n = (n - (V.card + 1)) * n + n := by
          have hstep : n - V.card = (n - (V.card + 1)) + 1 := by omega
          rw [hstep, Nat.succ_mul]
        omega

/-- Starting the stack loop at an unvisited face `f`, with a visited set
closed under adjacency, visits exactly `f`'s connected component. -/
theorem dfsRun_component {n : Nat} (adj : Fin n → Fin n → Bool) (f : Fin n)
    (V : Finset (Fin n))
    (hV : ∀ x ∈ V, ∀ y, adj x y = true → y ∈ V) (hf : f ∉ V) :
    dfsRun adj ((n + 1) * (n + 1)) [f] V = some (V ∪ component adj f) := by
  have hfuel : [f].length + (n - V.card) * n < (n + 1) * (n + 1) := by
    have hn : 0 < n := f.pos
    have hle : (n - V.card) * n ≤ n * n := Nat.mul_le_mul_right n (Nat.sub_le n V.card)
    have hsq : (n + 1) * (n + 1) = n * n + 2 * n + 1 := by ring
    simp only [List.length_singleton]
    omega
  obtain ⟨R, hR⟩ := Option.isSome_iff_exists.mp (dfsRun_isSome adj _ [f] V hfuel)
  rw [hR]
  congr 1
  apply Finset.ext
  intro g
  simp only [Finset.mem_union, component, Finset.mem_filter, Finset.mem_univ, true_and]
  constructor
  · intro hg
    rcases dfsRun_sound adj _ _ _ _ hR g hg with hgV | ⟨s, hs, hr⟩
    · exact Or.inl hgV
    · rcases List.mem_singleton.mp hs with rfl
      exact Or.inr hr
  · intro hg
    rcases hg with hgV | hreach
    · exact dfsRun_subset adj _ _ _ _ hR hgV
    · have hcl : ∀ x ∈ R, ∀ y, adj x y = true → y ∈ R := by
        refine dfsRun_closed adj _ _ _ _ ?_ hR
        intro x hx y hy
        exact Or.inl (hV x hx y hy)
      have hfR : f ∈ R := dfsRun_stack_mem adj _ _ _ _ hR f (List.mem_singleton_self f)
      induction hreach with
      | refl => exact hfR
      | tail _ hadj ihr => exact hcl _ ihr _ hadj

theorem mem_component_self {n : Nat} (adj : Fin n → Fin n → Bool) (f : Fin n) :
    f ∈ component adj f := by
  simp only [component, Finset.mem_filter, Finset.mem_univ, true_and]
  exact Relation.ReflTransGen.refl

theorem component_eq_of_reaches {n : Nat} {adj : Fin n → Fin n → Bool}
    (hsymm : ∀ i j, adj i j = adj j i) {f g : Fin n} (h : Reaches adj f g) :
    component adj f = component adj g := by
  have hsym : Symmetric (fun a b : Fin n => adj a b = true) := by
    intro a b hab
    rw [hsymm]
    exact hab
  have hgf : Reaches adj g f := Relation.ReflTransGen.symmetric hsym h
  apply Finset.ext
  intro x
  simp only [component, Finset.mem_filter, Finset.mem_univ, true_and]
  exact ⟨fun hfx => hgf.trans hfx, fun hgx => h.trans hgx⟩

/-- The outer island loop, run over any list covering all unvisited
faces and starting from a visited set closed under adjacency, counts
exactly the connected components not yet visited. -/
theorem islandLoop_eq {n : Nat} (adj : Fin n → Fin n → Bool)
    (hsymm : ∀ i j, adj i j = adj j i) :
    ∀ (l : List (Fin n)) (V : Finset (Fin n)) (c : Nat),
      (∀ x ∈ V, ∀ y, adj x y = true → y ∈ V) →
      (∀ g : Fin n, g ∉ V → g ∈ l) →
      islandLoop adj l V c =
        some (c + ((Finset.univ.filter (fun g => g ∉ V)).image (component adj)).card) := by
  intro l
  induction l with
  | nil =>
    intro V c _ hcover
    have hV : Finset.univ.filter (fun g : Fin n => g ∉ V) = ∅ := by
      apply Finset.filter_eq_empty_iff.mpr
      intro g _
      simp only [not_not]
      by_contra hg
      exact absurd (hcover g hg) (List.not_mem_nil g)
    simp [islandLoop, hV]
  | cons f rest ih =>
    intro V c hV hcover
    rw [islandLoop]
    by_cases hf : f ∈ V
    · rw [if_pos hf]
      refine ih V c hV ?_
      intro g hg
      rcases List.mem_cons.mp (hcover g hg) with rfl | h
      · exact absurd hf hg
      · exact h
    · rw [if_neg hf, dfsRun_component adj f V hV hf]
      show islandLoop adj rest (V ∪ component adj f) (c + 1) = _
      have hV' : ∀ x ∈ V ∪ component adj f, ∀ y, adj x y = true → y ∈ V ∪ component adj f := by
        intro x hx y hy
        rcases Finset.mem_union.mp hx with hxV | hxC
        · exact Finset.mem_union_left _ (hV x hxV y hy)
        · refine Finset.mem_union_right _ ?_
          simp only [component, Finset.mem_filter, Finset.mem_univ, true_and] at hxC ⊢
          exact hxC.tail hy
      have hcover' : ∀ g : Fin n, g ∉ V ∪ component adj f → g ∈ rest := by
        intro g hg
        have hgV : g ∉ V := fun h => hg (Finset.mem_union_left _ h)
        rcases List.mem_cons.mp (hcover g hgV) with rfl | h
        · exact absurd (Finset.mem_union_right _ (mem_component_self adj g)) hg
        · exact h
      rw [ih _ (c + 1) hV' hcover']
      congr 1
      have hkey :
          (Finset.univ.filter (fun g : Fin n => g ∉ V ∪ component adj f)).image (component adj)
            = ((Finset.univ.filter (fun g : Fin n => g ∉ V)).image (component adj)).erase
                (component adj f) := by
        apply Finset.ext
        intro C
        simp only [Finset.mem_image, Finset.mem_filter, Finset.mem_univ, true_and,
          Finset.mem_erase, Finset.mem_union, not_or]
        constructor
        · rintro ⟨g, ⟨hgV, hgC⟩, rfl⟩
          refine ⟨?_, g, hgV, rfl⟩
          intro hEq
          exact hgC (hEq ▸ mem_component_self adj g)
        · rintro ⟨hne, g, hgV, rfl⟩
          refine ⟨g, ⟨hgV, ?_⟩, rfl⟩
          intro hgC
          simp only [component, Finset.mem_filter, Finset.mem_univ, true_and] at hgC
          exact hne (component_eq_of_reaches hsymm hgC).symm
      have hmem : component adj f ∈
          (Finset.univ.filter (fun g : Fin n => g ∉ V)).image (component adj) := by
        exact Finset.mem_image_of_mem _ (by simp [hf])
      rw [hkey, Finset.card_erase_of_mem hmem]
      have hpos : 0 < ((Finset.univ.filter (fun g : Fin n => g ∉ V)).image (component adj)).card :=
        Finset.card_pos.mpr ⟨component adj f, hmem⟩
      omega

/-- C1. For every mesh, the island-counting traversal — run with any
iteration order covering all faces — returns (without exhausting its
fuel) exactly the number of connected components of the face-adjacency
graph; in particular the count is independent of the traversal order.
A single triangle yields 1, two disjoint triangles yield 2, and an empty
mesh yields 0. -/
theorem island_count_counts_components :
    (∀ (M : Mesh) (l : List (Fin M.n)), (∀ f, f ∈ l) →
        islandLoop (meshAdj M) l ∅ 0 = some (numComponents (meshAdj M)))
    ∧ islandCountOpt ⟨[[0, 1, 2]]⟩ = some 1
    ∧ islandCountOpt ⟨[[0, 1, 2], [3, 4, 5]]⟩ = some 2
    ∧ islandCountOpt ⟨[]⟩ = some 0 := by
  refine ⟨?_, by decide, by decide, by decide⟩
  intro M l hl
  have hsymm : ∀ i j, meshAdj M i j = meshAdj M j i := meshAdj_symm M
  rw [islandLoop_eq (meshAdj M) hsymm l ∅ 0 (by simp) (fun g _ => hl g)]
  congr 1
  simp [numComponents]

/-- Witness for C1: the traversal over the single-triangle mesh, in the
standard order, agrees with the component count. -/
theorem island_count_counts_components_witness :
    islandLoop (meshAdj ⟨[[0, 1, 2]]⟩) (List.finRange (Mesh.n ⟨[[0, 1, 2]]⟩)) ∅ 0
      = some (numComponents (meshAdj ⟨[[0, 1, 2]]⟩)) :=
  island_count_counts_components.1 ⟨[[0, 1, 2]]⟩ _ (by decide)

/-! ## External remesher invocation (`find_instant_meshes`,
`run_instant_meshes`, lines 230-287)

The effects of the host system are abstracted into an environment: the
resolved tool path, the wall-clock duration the subprocess would take,
its exit code, whether the expected output file appears, and whether the
built-in quadriflow operator would raise. -/

structure ExtEnv where
  toolPath : Option String
  runSeconds : Nat
  exitCode : Int
  outputExists : Bool
  stderr : String
  quadriflowRaises : Bool
deriving Repr, DecidableEq

/-- The exceptions `run_instant_meshes` can raise. -/
inductive RunError
  | toolNotFound
  | timeoutExpired
  | runtimeError (stderr : String)
deriving Repr, DecidableEq

/-- The wall-clock timeout passed to `subprocess.run` (line 282). -/
def instantMeshesTimeout : Nat := 600

/-- Function `run_instant_meshes`: raises if the tool is missing, the process
exceeds the timeout, the exit code is nonzero, or the output file is
missing; succeeds otherwise. -/
def run_instant_meshes (env : ExtEnv) : Except RunError Unit :=
  match env.toolPath with
  | none => .error .toolNotFound
  | some _ =>
    if instantMeshesTimeout < env.runSeconds then .error .timeoutExpired
    else if env.exitCode ≠ 0 ∨ env.outputExists = false then .error (.runtimeError env.stderr)
    else .ok ()

/-! ## Strategy selection (`quadriflow_remesh`, `retopo_with_loose_parts`,
lines 448-586) -/

inductive Strategy
  | external    -- Instant Meshes output accepted
  | quadriflow  -- built-in quadriflow remesh succeeded
  | decimate    -- quadriflow raised, decimate modifier applied
  | copy        -- quadriflow raised and no reduction was needed: plain duplicate
deriving Repr, DecidableEq

structure QfTrace where
  strategy : Strategy
  decimateRatio : Option ℚ
deriving Repr, DecidableEq

/-- Function `quadriflow_remesh` (lines 448-510): duplicate the high-poly mesh and
run the built-in quadriflow operator; if it raises and the duplicate has
more faces than the target, fall back to a collapse decimate with ratio
`max 0.0001 (target_faces / current_faces)`; otherwise keep the
unmodified duplicate. -/
def quadriflow_remesh (currentFaces targetFaces : Nat) (env : ExtEnv) : QfTrace :=
  if env.quadriflowRaises then
    if targetFaces < currentFaces then
      { strategy := .decimate,
        decimateRatio := some (max (1 / 10000 : ℚ) ((targetFaces : ℚ) / (currentFaces : ℚ))) }
    else { strategy := .copy, decimateRatio := none }
  else { strategy := .quadriflow, decimateRatio := none }

structure RetopoTrace where
  numIslands : Nat
  externalAttempted : Bool   -- `run_instant_meshes` was called
  subprocessLaunched : Bool  -- the external process was actually started
  strategy : Strategy
  qf : Option QfTrace
deriving Repr, DecidableEq

/-- Function `retopo_with_loose_parts` (lines 513-586): count islands; with 50 or
more go straight to quadriflow, otherwise export and attempt Instant
Meshes, falling back to quadriflow on any exception. -/
def retopo_with_loose_parts (M : Mesh) (targetFaces : Nat) (env : ExtEnv) : RetopoTrace :=
  let islands := islandCount M
  if 50 ≤ islands then
    let q := quadriflow_remesh M.n targetFaces env
    { numIslands := islands, externalAttempted := false, subprocessLaunched := false,
      strategy := q.strategy, qf := some q }
  else
    match run_instant_meshes env with
    | .ok _ =>
      { numIslands := islands, externalAttempted := true, subprocessLaunched := true,
        strategy := .external, qf := none }
    | .error e =>
      let q := quadriflow_remesh M.n targetFaces env
      { numIslands := islands, externalAttempted := true,
        subprocessLaunched := match e with | .toolNotFound => false | _ => true,
        strategy := q.strategy, qf := some q }

/-! ## Decimate fallback (`create_decimate_fallback`, lines 724-741) -/

/-- The decimate ratio computed by `create_decimate_fallback`:
`(target_tris / 2) / current` when the duplicate has faces, `0.1`
otherwise, then clamped into `[0.01, 1.0]`. -/
def create_decimate_fallback_ratio (targetTris currentFaces : Nat) : ℚ :=
  let ratio : ℚ :=
    if 0 < currentFaces then ((targetTris : ℚ) / 2) / (currentFaces : ℚ) else 1 / 10
  max (1 / 100) (min ratio 1)

/-- The pre-clamp ratio formula of `create_decimate_fallback`: decimating
to `targetTris` triangles means ratio `(targetTris / 2) / currentFaces`. -/
def decimate_ratio_for_tris (targetTris currentFaces : Nat) : ℚ :=
  ((targetTris : ℚ) / 2) / (currentFaces : ℚ)

/-- Modelled from the spec: the collapse decimate modifier itself is host
(Blender) functionality absent from `src/`; per the spec it performs a
"collapse-based reduction", scaling the face count by the modifier's
ratio. -/
def decimatedFaceCount (ratio : ℚ) (faces : Nat) : ℚ := ratio * (faces : ℚ)

/-! ## Review prompt (`UserPrompt.wait_for_approval`, lines 170-223)

Python's `.strip().lower()` is modelled at the character-list level. -/

inductive ReviewDecision
  | approve | skip | redo | quit
deriving Repr, DecidableEq

def stripChars (s : List Char) : List Char :=
  ((s.dropWhile Char.isWhitespace).reverse.dropWhile Char.isWhitespace).reverse

def lowerChars (s : List Char) : List Char := s.map Char.toLower

/-- The normalization `response = input(...).strip().lower()`. -/
def normalizeResponse (s : String) : List Char := lowerChars (stripChars s.data)

/-- Function `wait_for_approval`: console input `none` models `EOFError` (approve);
otherwise the normalized response is matched, anything unrecognized
defaulting to approve. -/
def wait_for_approval (autoApprove : Bool) (consoleInput : Option String) : ReviewDecision :=
  if autoApprove then .approve
  else
    match consoleInput with
    | none => .approve
    | some raw =>
      let response := normalizeResponse raw
      if response = "a".data ∨ response = "approve".data ∨ response = "".data then .approve
      else if response = "s".data ∨ response = "skip".data then .skip
      else if response = "r".data ∨ response = "redo".data then .redo
      else if response = "q".data ∨ response = "quit".data then .quit
      else .approve

/-- The decision-handling tail of `process_static_model` (lines 703-721):
only an approve decision exports the model's LODs. -/
def exported_lods (lods : List String) (response : ReviewDecision) : List String :=
  match response with
  | .approve => lods
  | _ => []

/-! ## Batch loop (`process_folder`, lines 1432-1451)

The loop enumerates the folder's files in order; each model consumes the
next review decision; `quit` stops the loop.  An exhausted decision
stream behaves like `EOFError` (approve). -/

def folderGo : Nat → Nat → List ReviewDecision → List (Nat × ReviewDecision) × List Nat
  | _, 0, _ => ([], [])
  | i, remaining + 1, decisions =>
    let d := decisions.headD ReviewDecision.approve
    match d with
    | ReviewDecision.quit => ([(i, d)], [])
    | ReviewDecision.approve =>
      let r := folderGo (i + 1) remaining decisions.tail
      ((i, d) :: r.1, i :: r.2)
    | _ =>
      let r := folderGo (i + 1) remaining decisions.tail
      ((i, d) :: r.1, r.2)

/-- The (model index, decision) trace and the exported model indices for
a folder of `numModels` models under a stream of review decisions. -/
def process_folder_trace (numModels : Nat) (decisions : List ReviewDecision) :
    List (Nat × ReviewDecision) × List Nat :=
  folderGo 0 numModels decisions

/-! ## Concrete instances used as witnesses -/

/-- A mesh of 50 mutually disconnected faces. -/
def soup50 : Mesh := ⟨(List.range 50).map (fun i => [i])⟩

def oneTri : Mesh := ⟨[[0, 1, 2]]⟩

def sampleEnv : ExtEnv :=
  ⟨some "instant-meshes", 10, 0, true, "", false⟩

def envToolMissing : ExtEnv := ⟨none, 0, 0, false, "", false⟩

def envTimedOut : ExtEnv := ⟨some "instant-meshes", 700, 0, false, "", false⟩

def envFailed : ExtEnv := ⟨some "instant-meshes", 10, 1, true, "mesh degenerate", false⟩

def envQfRaise : ExtEnv := ⟨none, 0, 0, false, "", true⟩

theorem quadriflow_strategy_ne_external (c t : Nat) (env : ExtEnv) :
    (quadriflow_remesh c t env).strategy ≠ .external := by
  unfold quadriflow_remesh
  split_ifs <;> simp

theorem quadriflow_congr (c t : Nat) {env env' : ExtEnv}
    (h : env.quadriflowRaises = env'.quadriflowRaises) :
    quadriflow_remesh c t env = quadriflow_remesh c t env' := by
  unfold quadriflow_remesh
  rw [h]

/-- C2. With 50 or more islands the selector never calls the external
remesher; with 49 or fewer it always attempts it: the branch boundary is
exactly 50. -/
theorem island_threshold_branch :
    (∀ (M : Mesh) (t : Nat) (env : ExtEnv), 50 ≤ islandCount M →
        (retopo_with_loose_parts M t env).externalAttempted = false)
    ∧ (∀ (M : Mesh) (t : Nat) (env : ExtEnv), islandCount M ≤ 49 →
        (retopo_with_loose_parts M t env).externalAttempted = true) := by
  constructor
  · intro M t env h
    simp only [retopo_with_loose_parts]
    rw [if_pos h]
  · intro M t env h
    simp only [retopo_with_loose_parts]
    rw [if_neg (by omega)]
    cases run_instant_meshes env <;> rfl

/-- Witness for C2: a 50-island soup never reaches the external remesher,
a single triangle (1 island) always attempts it. -/
theorem island_threshold_branch_witness :
    (50 ≤ islandCount soup50
      ∧ (retopo_with_loose_parts soup50 1000 sampleEnv).externalAttempted = false)
    ∧ (islandCount oneTri ≤ 49
      ∧ (retopo_with_loose_parts oneTri 1000 sampleEnv).externalAttempted = true) :=
  ⟨⟨by decide, island_threshold_branch.1 soup50 1000 sampleEnv (by decide)⟩,
   ⟨by decide, island_threshold_branch.2 oneTri 1000 sampleEnv (by decide)⟩⟩

/-- C3. Every failure of the external remesher (tool missing, timeout,
process failure) routes to the same quadriflow fallback and never yields
the "external" strategy; when quadriflow itself raises and reduction is
needed, the chain ends in a collapse decimate whose ratio is the
`create_decimate_fallback` ratio for `target_face_count * 2` triangles. -/
theorem remesher_failure_fallback :
    (∀ (M : Mesh) (t : Nat) (env : ExtEnv) (e : RunError),
        run_instant_meshes env = .error e →
        (retopo_with_loose_parts M t env).strategy ≠ .external
        ∧ (retopo_with_loose_parts M t env).qf = some (quadriflow_remesh M.n t env))
    ∧ (∀ (M : Mesh) (t : Nat) (env env' : ExtEnv) (e e' : RunError),
        run_instant_meshes env = .error e → run_instant_meshes env' = .error e' →
        env.quadriflowRaises = env'.quadriflowRaises →
        (retopo_with_loose_parts M t env).strategy = (retopo_with_loose_parts M t env').strategy
        ∧ (retopo_with_loose_parts M t env).qf = (retopo_with_loose_parts M t env').qf)
    ∧ (∀ (M : Mesh) (t : Nat) (env : ExtEnv),
        env.quadriflowRaises = true → t < M.n →
        quadriflow_remesh M.n t env
          = { strategy := .decimate,
              decimateRatio :=
                some (max (1 / 10000 : ℚ) (decimate_ratio_for_tris (t * 2) M.n)) }) := by
  refine ⟨?_, ?_, ?_⟩
  · intro M t env e he
    simp only [retopo_with_loose_parts]
    by_cases h50 : 50 ≤ islandCount M
    · rw [if_pos h50]
      exact ⟨quadriflow_strategy_ne_external _ _ _, rfl⟩
    · rw [if_neg h50, he]
      exact ⟨quadriflow_strategy_ne_external _ _ _, rfl⟩
  · intro M t env env' e e' he he' hq
    simp only [retopo_with_loose_parts]
    by_cases h50 : 50 ≤ islandCount M
    · rw [if_pos h50, if_pos h50]
      exact ⟨congrArg QfTrace.strategy (quadriflow_congr _ _ hq),
        congrArg some (quadriflow_congr _ _ hq)⟩
    · rw [if_neg h50, if_neg h50, he, he']
      exact ⟨congrArg QfTrace.strategy (quadriflow_congr _ _ hq),
        congrArg some (quadriflow_congr _ _ hq)⟩
  · intro M t env hq hlt
    unfold quadriflow_remesh
    rw [hq, if_pos rfl, if_pos hlt]
    have hcast : ((t * 2 : Nat) : ℚ) / 2 = (t : ℚ) := by push_cast; ring
    simp only [decimate_ratio_for_tris, hcast]

/-- Witness for C3: the three failure environments at a concrete mesh. -/
theorem remesher_failure_fallback_witness :
    ((retopo_with_loose_parts oneTri 5 envToolMissing).strategy ≠ .external
      ∧ (retopo_with_loose_parts oneTri 5 envToolMissing).qf
          = some (quadriflow_remesh oneTri.n 5 envToolMissing))
    ∧ ((retopo_with_loose_parts oneTri 5 envTimedOut).strategy
          = (retopo_with_loose_parts oneTri 5 envFailed).strategy
      ∧ (retopo_with_loose_parts oneTri 5 envTimedOut).qf
          = (retopo_with_loose_parts oneTri 5 envFailed).qf)
    ∧ quadriflow_remesh oneTri.n 0 envQfRaise
        = { strategy := .decimate,
            decimateRatio :=
              some (max (1 / 10000 : ℚ) (decimate_ratio_for_tris (0 * 2) oneTri.n)) } :=
  ⟨remesher_failure_fallback.1 oneTri 5 envToolMissing .toolNotFound rfl,
   remesher_failure_fallback.2.1 oneTri 5 envTimedOut envFailed
     .timeoutExpired (.runtimeError "mesh degenerate") rfl rfl rfl,
   remesher_failure_fallback.2.2 oneTri 0 envQfRaise rfl (by decide)⟩

/-- C4 counterexample: an empty mesh has island count 0, yet the selector
takes the clean path: the external remesher is attempted and the
subprocess launched — it is not classified as fragmented soup. -/
theorem empty_mesh_clean_path_counterexample :
    islandCount ⟨[]⟩ = 0
    ∧ (retopo_with_loose_parts ⟨[]⟩ 1000 sampleEnv).externalAttempted = true
    ∧ (retopo_with_loose_parts ⟨[]⟩ 1000 sampleEnv).subprocessLaunched = true := by
  refine ⟨by decide, by decide, by decide⟩

/-- C4 amended: an empty mesh (island count 0) falls below the soup
threshold (0 < 50), so the clean path is taken: the external remesher is
attempted, and the subprocess is launched whenever the tool resolves. -/
theorem empty_mesh_amended :
    ∀ (t : Nat) (env : ExtEnv),
      islandCount ⟨[]⟩ = 0
      ∧ (retopo_with_loose_parts ⟨[]⟩ t env).externalAttempted = true
      ∧ (env.toolPath ≠ none →
          (retopo_with_loose_parts ⟨[]⟩ t env).subprocessLaunched = true) := by
  intro t env
  have h0 : islandCount ⟨[]⟩ = 0 := by decide
  refine ⟨h0, ?_, ?_⟩
  · simp only [retopo_with_loose_parts, h0]
    rw [if_neg (by omega)]
    cases run_instant_meshes env <;> rfl
  · intro htp
    simp only [retopo_with_loose_parts, h0]
    rw [if_neg (by omega)]
    rcases henv : env.toolPath with _ | p
    · exact absurd henv htp
    · cases hrun : run_instant_meshes env with
      | ok u => rfl
      | error e =>
        cases e with
        | toolNotFound =>
          unfold run_instant_meshes at hrun
          rw [henv] at hrun
          split_ifs at hrun <;> simp_all
        | timeoutExpired => rfl
        | runtimeError s => rfl

/-- Witness for C4's amended claim at a concrete environment. -/
theorem empty_mesh_amended_witness :
    (retopo_with_loose_parts ⟨[]⟩ 1000 sampleEnv).subprocessLaunched = true :=
  (empty_mesh_amended 1000 sampleEnv).2.2 (by decide)

/-- C5 counterexample: for a single-triangle mesh (1 face) and target 5 ≥
1 the operation does not short-circuit to a no-op copy: the external
remesher is still invoked and produces the result. -/
theorem target_ge_current_counterexample :
    Mesh.n ⟨[[0, 1, 2]]⟩ ≤ 5
    ∧ (retopo_with_loose_parts ⟨[[0, 1, 2]]⟩ 5 sampleEnv).externalAttempted = true
    ∧ (retopo_with_loose_parts ⟨[[0, 1, 2]]⟩ 5 sampleEnv).strategy = .external := by
  refine ⟨by decide, by decide, by decide⟩

/-- C5 amended: only the decimate-fallback stage short-circuits — when
quadriflow raises and the current face count is at most the target, no
decimate modifier is applied and the unmodified duplicate is kept; the
external remesher (on the clean path) and the quadriflow operator are
invoked regardless of how the target compares to the current count. -/
theorem shortcircuit_amended :
    (∀ (c t : Nat) (env : ExtEnv), env.quadriflowRaises = true → c ≤ t →
        quadriflow_remesh c t env = { strategy := .copy, decimateRatio := none })
    ∧ (∀ (M : Mesh) (t : Nat) (env : ExtEnv), islandCount M ≤ 49 →
        (retopo_with_loose_parts M t env).externalAttempted = true)
    ∧ (∀ (c t : Nat) (env : ExtEnv), env.quadriflowRaises = false →
        (quadriflow_remesh c t env).strategy = .quadriflow) := by
  refine ⟨?_, ?_, ?_⟩
  · intro c t env hq hle
    unfold quadriflow_remesh
    rw [hq, if_pos rfl, if_neg (by omega)]
  · intro M t env h
    exact island_threshold_branch.2 M t env h
  · intro c t env hq
    unfold quadriflow_remesh
    rw [hq]
    rfl

/-- Witness for C5's amended claim. -/
theorem shortcircuit_amended_witness :
    quadriflow_remesh 1 5 envQfRaise = { strategy := .copy, decimateRatio := none }
    ∧ (retopo_with_loose_parts oneTri 5 sampleEnv).externalAttempted = true
    ∧ (quadriflow_remesh 1 5 sampleEnv).strategy = .quadriflow :=
  ⟨shortcircuit_amended.1 1 5 envQfRaise rfl (by decide),
   shortcircuit_amended.2.1 oneTri 5 sampleEnv (by decide),
   shortcircuit_amended.2.2 1 5 sampleEnv rfl⟩

/-- C7 counterexample: a single-model invocation whose subprocess runs
for 400 seconds — past the claimed 300-second single-model default —
does not time out, because the code passes a fixed 600-second timeout. -/
theorem single_model_timeout_counterexample :
    run_instant_meshes ⟨some "instant-meshes", 400, 0, true, "", false⟩ = .ok ()
    ∧ instantMeshesTimeout = 600
    ∧ ¬ instantMeshesTimeout = 300 :=
  ⟨rfl, rfl, by decide⟩

/-- C7 amended: every invocation of the external remesher — single-model
or batch — runs with the one fixed 600-second wall-clock timeout;
whenever the tool resolves and the process exceeds 600 seconds, the
outcome is the timeout error (handled by the fallback chain). -/
theorem timeout_amended :
    ∀ (env : ExtEnv) (p : String), env.toolPath = some p →
      instantMeshesTimeout = 600
      ∧ (instantMeshesTimeout < env.runSeconds →
          run_instant_meshes env = .error .timeoutExpired) := by
  intro env p hp
  refine ⟨rfl, fun h => ?_⟩
  unfold run_instant_meshes
  rw [hp, if_pos h]

/-- Witness for C7's amended claim: a 700-second run times out. -/
theorem timeout_amended_witness :
    run_instant_meshes envTimedOut = .error .timeoutExpired :=
  (timeout_amended envTimedOut "instant-meshes" rfl).2 (by decide)

/-- C9. The review-decision function is total and defaults to approve:
any console input that does not normalize to one of the skip / redo /
quit forms — including the empty string and end-of-input — yields the
approve decision, and the approve decision is the one that exports the
model's LODs. -/
theorem review_prompt_defaults_to_approve :
    (∀ (inp : Option String),
        (∀ s, inp = some s →
          normalizeResponse s ∉
            [("s".data), ("skip".data), ("r".data), ("redo".data), ("q".data), ("quit".data)]) →
        wait_for_approval false inp = .approve)
    ∧ wait_for_approval false (some "") = .approve
    ∧ wait_for_approval false none = .approve
    ∧ (∀ (lods : List String), exported_lods lods .approve = lods) := by
  refine ⟨?_, by decide, rfl, fun lods => rfl⟩
  intro inp h
  cases inp with
  | none => rfl
  | some s =>
    have hs := h s rfl
    simp only [List.mem_cons, List.not_mem_nil, or_false, not_or] at hs
    obtain ⟨h1, h2, h3, h4, h5, h6⟩ := hs
    simp only [wait_for_approval, Bool.false_eq_true, if_false]
    split_ifs with ha hb hc hd
    · rfl
    · rcases hb with hb | hb
      · exact absurd hb h1
      · exact absurd hb h2
    · rcases hc with hc | hc
      · exact absurd hc h3
      · exact absurd hc h4
    · rcases hd with hd | hd
      · exact absurd hd h5
      · exact absurd hd h6
    · rfl

/-- Witness for C9: an unrecognized response is approved. -/
theorem review_prompt_defaults_to_approve_witness :
    wait_for_approval false (some "continue") = .approve :=
  review_prompt_defaults_to_approve.1 (some "continue")
    (fun s hs => by cases hs; decide)

/-- C6 (code behavior at the failing input): over five models with the
decision sequence [Approve, Skip, Redo, Approve, Quit], the batch loop
processes model indices 0, 1, 2, 3, 4 — the Redo decision at index 2
does not re-enter Loading for the same model, it advances to index 3
exactly like a Skip — and only the two approved models (0 and 3) are
exported. -/
theorem redo_advances_instead_of_repeating :
    process_folder_trace 5
        [ReviewDecision.approve, ReviewDecision.skip, ReviewDecision.redo,
         ReviewDecision.approve, ReviewDecision.quit]
      = ([(0, ReviewDecision.approve), (1, ReviewDecision.skip), (2, ReviewDecision.redo),
          (3, ReviewDecision.approve), (4, ReviewDecision.quit)], [0, 3]) := by
  decide

/-- C10. The decimation fallback guards its division (zero-face meshes
get the literal ratio 0.1), clamps the applied ratio into [0.01, 1.0],
never increases the face count, never drops below 1% of the input count,
and therefore cannot reach a target below 1% of the input. -/
theorem decimate_fallback_ratio_bounds :
    (∀ (targetTris currentFaces : Nat),
        (1 / 100 : ℚ) ≤ create_decimate_fallback_ratio targetTris currentFaces
        ∧ create_decimate_fallback_ratio targetTris currentFaces ≤ 1
        ∧ decimatedFaceCount (create_decimate_fallback_ratio targetTris currentFaces)
            currentFaces ≤ (currentFaces : ℚ)
        ∧ (currentFaces : ℚ) / 100
            ≤ decimatedFaceCount (create_decimate_fallback_ratio targetTris currentFaces)
                currentFaces)
    ∧ (∀ targetTris : Nat, create_decimate_fallback_ratio targetTris 0 = 1 / 10)
    ∧ (∀ (targetTris currentFaces : Nat),
        (targetTris : ℚ) / 2 < (currentFaces : ℚ) / 100 →
        (targetTris : ℚ) / 2
          < decimatedFaceCount (create_decimate_fallback_ratio targetTris currentFaces)
              currentFaces) := by
  have hlow : ∀ (t c : Nat), (1 / 100 : ℚ) ≤ create_decimate_fallback_ratio t c :=
    fun t c => le_max_left _ _
  have hhigh : ∀ (t c : Nat), create_decimate_fallback_ratio t c ≤ 1 := by
    intro t c
    unfold create_decimate_fallback_ratio
    apply max_le (by norm_num)
    exact min_le_right _ _
  have hmono : ∀ (t c : Nat),
      decimatedFaceCount (create_decimate_fallback_ratio t c) c ≤ (c : ℚ) := by
    intro t c
    unfold decimatedFaceCount
    exact mul_le_of_le_one_left (by positivity) (hhigh t c)
  have hfloor : ∀ (t c : Nat),
      (c : ℚ) / 100 ≤ decimatedFaceCount (create_decimate_fallback_ratio t c) c := by
    intro t c
    unfold decimatedFaceCount
    have : (c : ℚ) / 100 = (1 / 100) * (c : ℚ) := by ring
    rw [this]
    exact mul_le_mul_of_nonneg_right (hlow t c) (by positivity)
  refine ⟨fun t c => ⟨hlow t c, hhigh t c, hmono t c, hfloor t c⟩, ?_, ?_⟩
  · intro t
    unfold create_decimate_fallback_ratio
    norm_num
  · intro t c h
    exact lt_of_lt_of_le h (hfloor t c)

/-- Witness for C10: concrete values exercising the zero-face guard and
the sub-1% clamp. -/
theorem decimate_fallback_ratio_bounds_witness :
    ((1 / 100 : ℚ) ≤ create_decimate_fallback_ratio 40 100
      ∧ create_decimate_fallback_ratio 40 100 ≤ 1
      ∧ decimatedFaceCount (create_decimate_fallback_ratio 40 100) 100 ≤ (100 : ℚ)
      ∧ (100 : ℚ) / 100 ≤ decimatedFaceCount (create_decimate_fallback_ratio 40 100) 100)
    ∧ create_decimate_fallback_ratio 40 0 = 1 / 10
    ∧ (1 : ℚ) / 2 < decimatedFaceCount (create_decimate_fallback_ratio 1 1000) 1000 :=
  ⟨decimate_fallback_ratio_bounds.1 40 100,
   decimate_fallback_ratio_bounds.2.1 40,
   by
    have := decimate_fallback_ratio_bounds.2.2 1 1000 (by norm_num)
    simpa using this⟩

/-! ## Attribute budget (spec §4.5)

The AttributeBudget component (measure / count / enforce) is code of the
repository that is not present under `src/`; the definitions below are
modelled from the spec's §4.5. -/

/-- Modelled from the spec: the per-mesh attribute set measured by
`AttributeBudget.measure` (position is always present and not stored). -/
structure AttributeSet where
  has_normal : Bool
  uv_layer_count : Nat
  color_layer_count : Nat
  morph_target_count : Nat
  has_tangent : Bool
deriving Repr, DecidableEq

/-- Modelled from the spec: a mesh as seen by the attribute-budget
component — its attribute set, whether any material references
vertex-color input, and its non-allow-listed custom attributes. -/
structure AttrMesh where
  attrs : AttributeSet
  material_uses_vertex_color : Bool
  custom_attribute_count : Nat
deriving Repr, DecidableEq

/-- Modelled from the spec: each cleanup step is individually toggleable
via policy flags. -/
structure CleanupPolicy where
  limit_uv_layers : Bool
  limit_color_layers : Bool
  remove_morph_targets : Bool
  remove_custom_attributes : Bool
deriving Repr, DecidableEq

/-- Modelled from the spec: `AttributeBudgetResult`. -/
structure AttributeBudgetResult where
  buffer_count : Nat
  over_limit : Bool
  removed_uv_layers : Nat
  removed_vertex_colors : Nat
  removed_shape_keys : Nat
  removed_custom_attributes : Nat
deriving Repr, DecidableEq

/-- Modelled from the spec: `count(attrs)` = 1 (position) + 1 (normal, if
present) + uv layers + color layers + morph targets + 1 (tangent, if
required). -/
def attrCount (a : AttributeSet) : Nat :=
  1 + (if a.has_normal then 1 else 0) + a.uv_layer_count + a.color_layer_count
    + a.morph_target_count + (if a.has_tangent then 1 else 0)

/-- The WebGPU vertex-buffer limit. -/
def bufferLimit : Nat := 8

/-- Modelled from the spec: step 1, retain only the first UV layer. -/
def stepUV (m : AttrMesh) : AttrMesh :=
  { m with attrs := { m.attrs with uv_layer_count := min m.attrs.uv_layer_count 1 } }

/-- Modelled from the spec: step 2, remove all color layers if no
material references vertex color, else retain only the first. -/
def stepColors (m : AttrMesh) : AttrMesh :=
  { m with attrs := { m.attrs with
      color_layer_count :=
        if m.material_uses_vertex_color then min m.attrs.color_layer_count 1 else 0 } }

/-- Modelled from the spec: step 3, remove all morph targets. -/
def stepMorphs (m : AttrMesh) : AttrMesh :=
  { m with attrs := { m.attrs with morph_target_count := 0 } }

/-- Modelled from the spec: step 4, remove all non-allow-listed custom
attributes. -/
def stepCustom (m : AttrMesh) : AttrMesh :=
  { m with custom_attribute_count := 0 }

/-- Modelled from the spec: `enforce` applies the enabled cleanup steps
in fixed order when the count exceeds the limit, re-measuring after each
step and stopping early once the count is within the limit. -/
def enforceMesh (p : CleanupPolicy) (m : AttrMesh) : AttrMesh :=
  if attrCount m.attrs ≤ bufferLimit then m
  else
    let m1 := if p.limit_uv_layers then stepUV m else m
    if attrCount m1.attrs ≤ bufferLimit then m1
    else
      let m2 := if p.limit_color_layers then stepColors m1 else m1
      if attrCount m2.attrs ≤ bufferLimit then m2
      else
        let m3 := if p.remove_morph_targets then stepMorphs m2 else m2
        if attrCount m3.attrs ≤ bufferLimit then m3
        else if p.remove_custom_attributes then stepCustom m3 else m3

/-- All enabled steps applied unconditionally, in the fixed order. -/
def applyAllSteps (p : CleanupPolicy) (m : AttrMesh) : AttrMesh :=
  (fun x => if p.remove_custom_attributes then stepCustom x else x)
    ((fun x => if p.remove_morph_targets then stepMorphs x else x)
      ((fun x => if p.limit_color_layers then stepColors x else x)
        ((fun x => if p.limit_uv_layers then stepUV x else x) m)))

/-- Modelled from the spec: `enforce(mesh, policy)` returns the cleaned
mesh together with the measured `AttributeBudgetResult`. -/
def enforce (p : CleanupPolicy) (m : AttrMesh) : AttrMesh × AttributeBudgetResult :=
  let m' := enforceMesh p m
  (m',
   { buffer_count := attrCount m'.attrs,
     over_limit := decide (bufferLimit < attrCount m'.attrs),
     removed_uv_layers := m.attrs.uv_layer_count - m'.attrs.uv_layer_count,
     removed_vertex_colors := m.attrs.color_layer_count - m'.attrs.color_layer_count,
     removed_shape_keys := m.attrs.morph_target_count - m'.attrs.morph_target_count,
     removed_custom_attributes := m.custom_attribute_count - m'.custom_attribute_count })

theorem enforceMesh_of_compliant (p : CleanupPolicy) (m : AttrMesh)
    (h : attrCount m.attrs ≤ bufferLimit) : enforceMesh p m = m := by
  unfold enforceMesh
  rw [if_pos h]

/-- The cleanup either stops with a compliant mesh or has applied every
enabled step. -/
theorem enforceMesh_cases (p : CleanupPolicy) (m : AttrMesh) :
    attrCount (enforceMesh p m).attrs ≤ bufferLimit
    ∨ enforceMesh p m = applyAllSteps p m := by
  simp only [enforceMesh, applyAllSteps]
  split_ifs <;> first | (left; assumption) | (right; rfl)

/-- If the cleaned mesh is still over the limit, no early stop fired, so
every enabled step was applied. -/
theorem enforceMesh_of_over (p : CleanupPolicy) (m : AttrMesh)
    (h : bufferLimit < attrCount (enforceMesh p m).attrs) :
    enforceMesh p m = applyAllSteps p m := by
  rcases enforceMesh_cases p m with hc | he
  · omega
  · exact he

theorem applyAllSteps_idem (p : CleanupPolicy) (m : AttrMesh) :
    applyAllSteps p (applyAllSteps p m) = applyAllSteps p m := by
  obtain ⟨hu, hc, hm, hcu⟩ := p
  cases hb : m.material_uses_vertex_color <;>
    cases hu <;> cases hc <;> cases hm <;> cases hcu <;>
    simp [applyAllSteps, stepUV, stepColors, stepMorphs, stepCustom, hb, min_assoc]

/-- Every enabled step fixes the all-steps normal form. -/
theorem step_fixpoints (p : CleanupPolicy) (m : AttrMesh) :
    (p.limit_uv_layers = true → stepUV (applyAllSteps p m) = applyAllSteps p m)
    ∧ (p.limit_color_layers = true → stepColors (applyAllSteps p m) = applyAllSteps p m)
    ∧ (p.remove_morph_targets = true → stepMorphs (applyAllSteps p m) = applyAllSteps p m)
    ∧ (p.remove_custom_attributes = true →
        stepCustom (applyAllSteps p m) = applyAllSteps p m) := by
  obtain ⟨hu, hc, hm, hcu⟩ := p
  cases hb : m.material_uses_vertex_color <;>
    cases hu <;> cases hc <;> cases hm <;> cases hcu <;>
    simp [applyAllSteps, stepUV, stepColors, stepMorphs, stepCustom, hb, min_assoc]

theorem enforceMesh_fix_of_over (p : CleanupPolicy) (m : AttrMesh)
    (h : bufferLimit < attrCount (applyAllSteps p m).attrs) :
    enforceMesh p (applyAllSteps p m) = applyAllSteps p m := by
  obtain ⟨f1, f2, f3, f4⟩ := step_fixpoints p m
  have e1 : (if p.limit_uv_layers then stepUV (applyAllSteps p m) else applyAllSteps p m)
      = applyAllSteps p m := by
    by_cases h1 : p.limit_uv_layers
    · rw [if_pos h1]; exact f1 h1
    · rw [if_neg h1]
  have e2 : (if p.limit_color_layers then stepColors (applyAllSteps p m) else applyAllSteps p m)
      = applyAllSteps p m := by
    by_cases h1 : p.limit_color_layers
    · rw [if_pos h1]; exact f2 h1
    · rw [if_neg h1]
  have e3 : (if p.remove_morph_targets then stepMorphs (applyAllSteps p m) else applyAllSteps p m)
      = applyAllSteps p m := by
    by_cases h1 : p.remove_morph_targets
    · rw [if_pos h1]; exact f3 h1
    · rw [if_neg h1]
  have e4 : (if p.remove_custom_attributes then stepCustom (applyAllSteps p m) else applyAllSteps p m)
      = applyAllSteps p m := by
    by_cases h1 : p.remove_custom_attributes
    · rw [if_pos h1]; exact f4 h1
    · rw [if_neg h1]
  simp only [enforceMesh]
  rw [if_neg (by omega), e1, if_neg (by omega), e2, if_neg (by omega), e3,
    if_neg (by omega), e4]

theorem enforceMesh_idem (p : CleanupPolicy) (m : AttrMesh) :
    enforceMesh p (enforceMesh p m) = enforceMesh p m := by
  by_cases h : attrCount (enforceMesh p m).attrs ≤ bufferLimit
  · exact enforceMesh_of_compliant p _ h
  · have h' : bufferLimit < attrCount (enforceMesh p m).attrs := by omega
    have h1 := enforceMesh_of_over p m h'
    rw [h1]
    exact enforceMesh_fix_of_over p m (h1 ▸ h')

def sampleAttrMesh : AttrMesh := ⟨⟨true, 1, 1, 0, false⟩, false, 0⟩

def overAttrMesh : AttrMesh := ⟨⟨true, 4, 2, 3, true⟩, false, 2⟩

def fullPolicy : CleanupPolicy := ⟨true, true, true, true⟩

/-- C8. `enforce` is a no-op (identity mesh, nothing removed, not over
limit) on a mesh already within the 8-buffer limit; applying it twice in
succession yields an identical `buffer_count` on the second call; and the
measured count is monotonically non-increasing across each cleanup step. -/
theorem enforce_idempotent_and_monotone :
    (∀ (p : CleanupPolicy) (m : AttrMesh), attrCount m.attrs ≤ 8 →
        enforce p m
          = (m, { buffer_count := attrCount m.attrs, over_limit := false,
                  removed_uv_layers := 0, removed_vertex_colors := 0,
                  removed_shape_keys := 0, removed_custom_attributes := 0 }))
    ∧ (∀ (p : CleanupPolicy) (m : AttrMesh),
        (enforce p (enforce p m).1).2.buffer_count = (enforce p m).2.buffer_count)
    ∧ (∀ m : AttrMesh, attrCount (stepUV m).attrs ≤ attrCount m.attrs)
    ∧ (∀ m : AttrMesh, attrCount (stepColors m).attrs ≤ attrCount m.attrs)
    ∧ (∀ m : AttrMesh, attrCount (stepMorphs m).attrs ≤ attrCount m.attrs)
    ∧ (∀ m : AttrMesh, attrCount (stepCustom m).attrs ≤ attrCount m.attrs) := by
  have hb : bufferLimit = 8 := rfl
  refine ⟨?_, ?_, ?_, ?_, ?_, ?_⟩
  · intro p m h
    have hm : enforceMesh p m = m := enforceMesh_of_compliant p m (by omega)
    have hd : decide (bufferLimit < attrCount m.attrs) = false :=
      decide_eq_false (by omega)
    simp only [enforce, hm, hd, Nat.sub_self]
  · intro p m
    simp only [enforce]
    rw [enforceMesh_idem]
  · intro m
    simp only [attrCount, stepUV]
    omega
  · intro m
    simp only [attrCount, stepColors]
    split_ifs <;> omega
  · intro m
    simp only [attrCount, stepMorphs]
    omega
  · intro m
    simp only [attrCount, stepCustom]
    exact le_refl _

/-- Witness for C8 at concrete meshes and the all-enabled policy. -/
theorem enforce_idempotent_and_monotone_witness :
    (attrCount sampleAttrMesh.attrs ≤ 8
      ∧ enforce fullPolicy sampleAttrMesh
          = (sampleAttrMesh,
             { buffer_count := attrCount sampleAttrMesh.attrs, over_limit := false,
               removed_uv_layers := 0, removed_vertex_colors := 0,
               removed_shape_keys := 0, removed_custom_attributes := 0 }))
    ∧ (enforce fullPolicy (enforce fullPolicy overAttrMesh).1).2.buffer_count
        = (enforce fullPolicy overAttrMesh).2.buffer_count
    ∧ attrCount (stepUV overAttrMesh).attrs ≤ attrCount overAttrMesh.attrs :=
  ⟨⟨by decide, enforce_idempotent_and_monotone.1 fullPolicy sampleAttrMesh (by decide)⟩,
   enforce_idempotent_and_monotone.2.1 fullPolicy overAttrMesh,
   enforce_idempotent_and_monotone.2.2.1 overAttrMesh⟩

end Voidstrike
